import Mathlib

/-!
Shallow embedding of the step-composition pipeline core of `src/pipeline.py`
(`Context`, the `PipelineStep` variants, `Pipeline`, the text-processing
actions, and the `describe` introspection), together with theorems settling
the specification claims about it.

Modelling conventions:
* a Python `dict` is an association list in insertion order with unique keys;
  `dict.__setitem__` overwrites an existing entry in place or appends,
  `dict.get` finds the (unique) matching key;
* a Python object reference is a numeric identity (`objId` field); the step
  classes of the source define no `__eq__`, so Python `==` on their instances
  compares identity;
* a step's `execute` mutates the context and may raise: it is embedded as a
  function from the context to the context it leaves behind paired with the
  raised error, if any (`none` = normal return);
* `io.StringIO` is a string accumulator: each `describe` returns the text it
  appends;
* nested mutable values (the shallow-copy claim) live in an explicit heap of
  numbered cells, and a `Context` value can be a reference into that heap.
-/

namespace SDM

/-! ## Python dict operations (`Context._data`, `SingletonMeta._instances`) -/

/-- Python `dict` assignment `d[k] = v`: overwrite the existing entry in
place (keeping insertion order) or append a new entry at the end.  Embeds
`Context.set` (src/pipeline.py lines 20-21). -/
def dictSet [BEq κ] : List (κ × α) → κ → α → List (κ × α)
  | [], k, v => [(k, v)]
  | p :: t, k, v => if p.1 == k then (k, v) :: t else p :: dictSet t k v

/-- Python `dict` lookup `d.get(k)`: the entry with key `k`, if any. -/
def dictGet [BEq κ] (d : List (κ × α)) (k : κ) : Option α :=
  (d.find? (fun p => p.1 == k)).map Prod.snd

/-- Python `d.get(k, default)`: stored value or the caller-supplied default.
Embeds `Context.get` (src/pipeline.py lines 17-18). -/
def dictGetD [BEq κ] (d : List (κ × α)) (k : κ) (default : α) : α :=
  (dictGet d k).getD default

/-- Python `k in d`. -/
def isKey [BEq κ] (d : List (κ × α)) (k : κ) : Bool :=
  d.any (fun p => p.1 == k)

/-! ## Step objects and the Pipeline step-list operations -/

/-- A pipeline step object as `Pipeline._steps` stores it: `objId` is the
reference identity of the Python object, `name` its (value) payload.  The
`SingletonStep` instance is also such an object. -/
structure StepObj where
  objId : Nat
  name : String
deriving DecidableEq, Repr

/-- Python object equality `==` for step objects: the step classes define no
`__eq__`, so `==` falls back to reference identity. -/
def stepEq (a b : StepObj) : Bool := a.objId == b.objId

/-- Python `list.insert(i, x)` exactly as `Pipeline.insert_step` calls it
(src/pipeline.py lines 174-175): a negative index counts from the end and is
clamped below at `0`; an index above the length is clamped to the length, so
the element is appended.  `list.insert` never raises. -/
def pyListInsert (l : List α) (i : Int) (x : α) : List α :=
  let j : Nat := if i < 0 then (i + l.length).toNat else min i.toNat l.length
  l.take j ++ x :: l.drop j

/-- First-occurrence removal underlying Python `list.remove(x)`: `none` when
no element compares `==` to `x`. -/
def removeFirst : List StepObj → StepObj → Option (List StepObj)
  | [], _ => none
  | y :: t, x => if stepEq y x then some t else (removeFirst t x).map (y :: ·)

/-- `Pipeline.remove_step` (src/pipeline.py lines 177-178): Python
`list.remove` removes the first occurrence or raises `ValueError`, leaving
the list unmodified in the latter case.  The result pairs the step list
after the call with the raised error, if any. -/
def removeStepRun (l : List StepObj) (s : StepObj) : List StepObj × Option String :=
  match removeFirst l s with
  | some l' => (l', none)
  | none => (l, some "list.remove(x): x not in list")

/-! ## Pipeline execution -/

/-- `Pipeline.execute` (src/pipeline.py lines 180-182): run each step's
`execute` on the context in list order; a raise aborts the loop at once and
propagates unmodified, keeping the context state the raising step left
behind. -/
def pipelineExecute : List (α → α × Option ε) → α → α × Option ε
  | [], c => (c, none)
  | s :: rest, c =>
    match s c with
    | (c', none) => pipelineExecute rest c'
    | (c', some e) => (c', some e)

/-! ## LegacyAdapter -/

/-- `LegacyAdapter.execute` (src/pipeline.py lines 75-80): take the
`to_dict` snapshot of the context, hand it to the legacy function together
with `extra` (the function returns the snapshot as it stands after the
in-place mutation), then write every key of the mutated snapshot back into
the context with `context.set`. -/
def legacyAdapterExecute (legacyFn : List (String × α) → ε → List (String × α))
    (extra : ε) (ctx : List (String × α)) : List (String × α) :=
  let data := legacyFn ctx extra
  data.foldl (fun c p => dictSet c p.1 p.2) ctx

/-- Python `str.upper()` on ASCII text. -/
def pyUpper (s : String) : String := String.mk (s.data.map Char.toUpper)

/-! ## Text-processing values and actions -/

/-- A value stored in the text-processing `Context`: a string or a token
list (the only value shapes the actions of src/pipeline.py store). -/
inductive PyVal where
  | str : String → PyVal
  | toks : List String → PyVal
deriving DecidableEq, Repr

/-- The text-processing context: the `Context._data` dict. -/
abbrev TextCtx := List (String × PyVal)

/-- `legacy_uppercase` (src/pipeline.py lines 239-242): if `"text"` is a
key, uppercase its value in the snapshot.  (A non-string `"text"` value
would raise in Python; no modelled run stores one.) -/
def legacy_uppercase (data : List (String × PyVal)) (_extra : Unit) :
    List (String × PyVal) :=
  match dictGet data "text" with
  | some (.str t) => dictSet data "text" (.str (pyUpper t))
  | _ => data

/-- A sample legacy function that clears its snapshot (`data.clear()`),
used to exercise the deleted-key asymmetry of the adapter write-back. -/
def legacy_clear (_data : List (String × PyVal)) (_extra : Unit) :
    List (String × PyVal) := []

/-- Scan for Python `str.split()`: `cur` holds the characters of the token
in progress, reversed; whitespace ends the token, and empty pieces are
never produced. -/
def pySplitChars : List Char → List Char → List String
  | [], cur => if cur.isEmpty then [] else [String.mk cur.reverse]
  | c :: cs, cur =>
    if c.isWhitespace then
      if cur.isEmpty then pySplitChars cs []
      else String.mk cur.reverse :: pySplitChars cs []
    else pySplitChars cs (c :: cur)

/-- Python `str.split()` with no separator: split on whitespace runs,
discarding empty pieces. -/
def pySplit (s : String) : List String := pySplitChars s.data []

/-- `load_text_action` (src/pipeline.py lines 211-215): take `"src"` when it
is a string, else the default sample text, and store it under `"text"`. -/
def load_text_action (c : TextCtx) : TextCtx × Option String :=
  let text := match dictGet c "src" with
    | some (.str s) => s
    | _ => "Default sample text, with SOME punctuation!"
  (dictSet c "text" (.str text), none)

/-- `normalize_action` (src/pipeline.py lines 217-221): lowercase each
alphanumeric character of `"text"` and replace every other character by a
space.  (A token-list `"text"` value is never stored by the modelled
actions; Python would misbehave there and the embedding raises.) -/
def normalize_action (c : TextCtx) : TextCtx × Option String :=
  match dictGetD c "text" (.str "") with
  | .str t =>
    let normalized := String.mk (t.data.map fun ch =>
      if ch.isAlphanum then ch.toLower else ' ')
    (dictSet c "text" (.str normalized), none)
  | _ => (c, some "TypeError")

/-- `tokenize_action` (src/pipeline.py lines 223-226): split `"text"` on
whitespace, keep nonempty tokens, store under `"tokens"`. -/
def tokenize_action (c : TextCtx) : TextCtx × Option String :=
  match dictGetD c "text" (.str "") with
  | .str t =>
    let tokens := (pySplit t).filter (fun tok => tok ≠ "")
    (dictSet c "tokens" (.toks tokens), none)
  | _ => (c, some "AttributeError")

/-- The stopword set of `filter_stopwords_action` (src/pipeline.py line 230). -/
def stopwords : List String := ["and", "or", "the", "with", "a", "an", "in", "on", "of"]

/-- `filter_stopwords_action` (src/pipeline.py lines 228-232): drop the
stopwords from `"tokens"`. -/
def filter_stopwords_action (c : TextCtx) : TextCtx × Option String :=
  match dictGetD c "tokens" (.toks []) with
  | .toks ts => (dictSet c "tokens" (.toks (ts.filter (fun t => !stopwords.contains t))), none)
  | _ => (c, some "TypeError")

/-- `join_action` (src/pipeline.py lines 234-236): join `"tokens"` with
single spaces into `"result"`. -/
def join_action (c : TextCtx) : TextCtx × Option String :=
  match dictGetD c "tokens" (.toks []) with
  | .toks ts => (dictSet c "result" (.str (String.intercalate " " ts)), none)
  | _ => (c, some "TypeError")

/-- The five-step text pipeline of `TestPipelineBasics.test_text_pipeline`
(src/pipeline.py lines 304-312); a `FuncStep`'s `execute` delegates directly
to its action (lines 56-57). -/
def textPipeline : List (TextCtx → TextCtx × Option String) :=
  [load_text_action, normalize_action, tokenize_action, filter_stopwords_action, join_action]

/-! ## BeforeAfterDecorator -/

/-- `BeforeAfterDecorator.execute` (src/pipeline.py lines 100-105): run the
`before` hook when present, then the wrapped step, then the `after` hook
when present. -/
def beforeAfterExecute (before after : Option (α → α)) (stepExec : α → α) (ctx : α) : α :=
  let c1 := match before with
    | some b => b ctx
    | none => ctx
  let c2 := stepExec c1
  match after with
  | some a => a c2
  | none => c2

/-! ## SingletonMeta / SingletonStep -/

/-- The state of `SingletonMeta._instances` restricted to the one registered
class `SingletonStep`, plus an allocation counter giving fresh object
identities. -/
structure SingletonState where
  inst : Option StepObj
  nextId : Nat
deriving DecidableEq, Repr

/-- A construction request `SingletonStep()` routed through
`SingletonMeta.__call__` (src/pipeline.py lines 141-144): on the first call
allocate the instance and run `__init__` (which sets `name` to
`"SingletonNoOp"`, lines 150-151), memoize it; on every later call return
the memoized instance without running `__init__` again. -/
def singletonCall (s : SingletonState) : SingletonState × StepObj :=
  match s.inst with
  | some i => (s, i)
  | none =>
    let i : StepObj := ⟨s.nextId, "SingletonNoOp"⟩
    ({ inst := some i, nextId := s.nextId + 1 }, i)

/-- A later in-place mutation of the singleton instance's `name` attribute
(the instance is shared, so the memoized copy is the mutated one). -/
def singletonSetName (s : SingletonState) (n : String) : SingletonState :=
  { s with inst := s.inst.map fun i => { i with name := n } }

/-- `SingletonStep.execute` (src/pipeline.py lines 153-155): `pass` — the
context is returned untouched. -/
def singletonExecute (ctx : α) : α := ctx

/-! ## describe introspection -/

/-- `" " * n`. -/
def spaces (n : Nat) : String := String.mk (List.replicate n ' ')

mutual
/-- The step shapes relevant to `describe`, with their names. -/
inductive DStep where
  | funcStep : String → DStep
  | legacyStep : String → DStep
  | decoratorStep : String → DStep → DStep
  | singletonStep : DStep
  | nestedStep : String → DPipeline → DStep

/-- A pipeline as `describe` sees it: its step list. -/
inductive DPipeline where
  | mk : List DStep → DPipeline
end

mutual
/-- The `describe` methods of the step classes (src/pipeline.py lines 59-60,
82-83, 107-110, 127-129, 157-158).  `NestedPipelineStep.describe` calls the
inner pipeline's describe with the constant `indent=2`. -/
def dstepDescribe : DStep → String
  | .funcStep n => "FuncStep: " ++ n ++ "\n"
  | .legacyStep n => "LegacyAdapter: " ++ n ++ " (wraps legacy_func)\n"
  | .decoratorStep n w => "Decorator: " ++ n ++ "\n" ++ "  wraps -> " ++ dstepDescribe w
  | .singletonStep => "SingletonStep: SingletonNoOp\n"
  | .nestedStep n p => "NestedPipelineStep: " ++ n ++ "\n" ++ dpipeDescribe p 2

/-- `Pipeline.describe` (src/pipeline.py lines 184-189): the header at the
given indentation, then each step behind its 1-based index marker. -/
def dpipeDescribe : DPipeline → Nat → String
  | .mk steps, indent =>
      spaces indent ++ "Pipeline with " ++ toString steps.length ++ " steps:\n" ++
      dstepsDescribe steps (spaces indent) 1

/-- The `for i, step in enumerate(self._steps, 1)` loop body of
`Pipeline.describe`. -/
def dstepsDescribe : List DStep → String → Nat → String
  | [], _, _ => ""
  | s :: rest, pre, i =>
      pre ++ " " ++ toString i ++ ". " ++ dstepDescribe s ++ dstepsDescribe rest pre (i + 1)
end

mutual
/-- Modelled from the spec's words, for comparison with `dstepDescribe`: the
claimed rendering in which each further nesting level of a nested pipeline
is indented by 2 additional spaces per level (the nested pipeline is
described at the ambient indentation plus 2). -/
def specDStepDescribe : DStep → Nat → String
  | .funcStep n, _ => "FuncStep: " ++ n ++ "\n"
  | .legacyStep n, _ => "LegacyAdapter: " ++ n ++ " (wraps legacy_func)\n"
  | .decoratorStep n w, indent => "Decorator: " ++ n ++ "\n" ++ "  wraps -> " ++ specDStepDescribe w indent
  | .singletonStep, _ => "SingletonStep: SingletonNoOp\n"
  | .nestedStep n p, indent => "NestedPipelineStep: " ++ n ++ "\n" ++ specDPipeDescribe p (indent + 2)

/-- Modelled from the spec's words: `Pipeline.describe` with the nesting
indentation accumulated per level. -/
def specDPipeDescribe : DPipeline → Nat → String
  | .mk steps, indent =>
      spaces indent ++ "Pipeline with " ++ toString steps.length ++ " steps:\n" ++
      specDStepsDescribe steps (spaces indent) 1 indent

/-- The per-step loop of the spec-modelled describe. -/
def specDStepsDescribe : List DStep → String → Nat → Nat → String
  | [], _, _, _ => ""
  | s :: rest, pre, i, indent =>
      pre ++ " " ++ toString i ++ ". " ++ specDStepDescribe s indent ++
      specDStepsDescribe rest pre (i + 1) indent
end

/-! ## Shallow copy of `Context.to_dict` over an explicit heap -/

/-- A stored `Context` value: an immediate string or a reference to a heap
cell holding a mutable nested list. -/
inductive HVal where
  | str : String → HVal
  | ref : Nat → HVal
deriving DecidableEq, Repr

/-- The heap of mutable nested lists, addressed by reference. -/
abbrev Heap := List (Nat × List String)

/-- `Context.to_dict` (src/pipeline.py lines 26-27), i.e. Python
`dict(self._data)`: a new top-level mapping holding the same entries — the
same value references, not copies of the referenced cells. -/
def to_dict (d : List (String × HVal)) : List (String × HVal) := d

/-- The nested-list value observed through the Context for key `k`:
dereference the stored reference in the heap. -/
def derefGet (d : List (String × HVal)) (h : Heap) (k : String) : Option (List String) :=
  match dictGet d k with
  | some (.ref r) => dictGet h r
  | _ => none

/-- In-place mutation of the nested list in heap cell `r` (for example
`copy["xs"].append(...)` reached through a `to_dict` copy). -/
def heapWrite (h : Heap) (r : Nat) (xs : List String) : Heap := dictSet h r xs

/-! ## Helper lemmas -/

theorem dictGet_nil [BEq κ] (k : κ) : dictGet ([] : List (κ × α)) k = none := rfl

theorem dictGet_cons [BEq κ] (a : κ × α) (t : List (κ × α)) (k : κ) :
    dictGet (a :: t) k = if a.1 == k then some a.2 else dictGet t k := by
  simp only [dictGet, List.find?_cons]
  by_cases h : a.1 == k <;> simp [h]

/-- Core dict law: after `d[k] = v`, looking up `k'` yields `v` when
`k' = k` and the old answer otherwise. -/
theorem dictGet_dictSet [BEq κ] [LawfulBEq κ] [DecidableEq κ]
    (d : List (κ × α)) (k : κ) (v : α) (k' : κ) :
    dictGet (dictSet d k v) k' = if k' = k then some v else dictGet d k' := by
  induction d with
  | nil =>
    simp only [dictSet, dictGet_cons, dictGet_nil]
    by_cases h : k' = k
    · subst h; simp
    · simp [h, Ne.symm h]
  | cons a t ih =>
    simp only [dictSet]
    by_cases hak : a.1 = k
    · simp only [hak, beq_self_eq_true, if_true, dictGet_cons]
      by_cases h : k' = k
      · subst h; simp
      · simp [h, Ne.symm h]
    · have hakb : (a.1 == k) = false := by simp [hak]
      simp only [hakb, Bool.false_eq_true, if_false, dictGet_cons, ih]
      by_cases h : k' = k
      · subst h
        have : (a.1 == k') = false := by simp [hak]
        simp [this, hak]
      · by_cases hak' : a.1 = k'
        · simp [hak', h]
        · simp [hak', h]

theorem removeFirst_not_found (l : List StepObj) (s : StepObj)
    (h : ∀ y ∈ l, stepEq y s = false) : removeFirst l s = none := by
  induction l with
  | nil => rfl
  | cons y t ih =>
    simp only [removeFirst, h y (by simp), Bool.false_eq_true, if_false]
    rw [ih fun z hz => h z (by simp [hz])]
    rfl

theorem removeFirst_first_occ (l₁ l₂ : List StepObj) (s : StepObj)
    (h : ∀ y ∈ l₁, stepEq y s = false) :
    removeFirst (l₁ ++ s :: l₂) s = some (l₁ ++ l₂) := by
  induction l₁ with
  | nil => simp [removeFirst, stepEq]
  | cons y t ih =>
    simp only [List.cons_append, removeFirst, h y (by simp), Bool.false_eq_true, if_false,
      List.append_eq]
    rw [ih fun z hz => h z (by simp [hz])]
    rfl

theorem pipelineExecute_append (l₁ l₂ : List (α → α × Option ε)) (c : α) :
    pipelineExecute (l₁ ++ l₂) c =
      match pipelineExecute l₁ c with
      | (c', none) => pipelineExecute l₂ c'
      | (c', some e) => (c', some e) := by
  induction l₁ generalizing c with
  | nil => simp [pipelineExecute]
  | cons s rest ih =>
    simp only [List.cons_append, pipelineExecute]
    cases hs : s c with
    | mk c' e =>
      cases e with
      | none => simpa using ih c'
      | some err => simp

theorem dictGet_writeBack_not_key [BEq κ] [LawfulBEq κ] [DecidableEq κ]
    (entries : List (κ × α)) (c : List (κ × α)) (k : κ) (h : isKey entries k = false) :
    dictGet (entries.foldl (fun c p => dictSet c p.1 p.2) c) k = dictGet c k := by
  induction entries generalizing c with
  | nil => rfl
  | cons p t ih =>
    simp only [isKey, List.any_cons, Bool.or_eq_false_iff] at h
    obtain ⟨h1, h2⟩ := h
    simp only [List.foldl_cons]
    rw [ih _ h2, dictGet_dictSet]
    have : ¬ k = p.1 := by
      intro hk
      subst hk
      simp at h1
    simp [this]

theorem dictGet_writeBack_key [BEq κ] [LawfulBEq κ] [DecidableEq κ]
    (entries : List (κ × α)) (c : List (κ × α)) (k : κ)
    (hnd : (entries.map Prod.fst).Nodup) (h : isKey entries k = true) :
    dictGet (entries.foldl (fun c p => dictSet c p.1 p.2) c) k = dictGet entries k := by
  induction entries generalizing c with
  | nil => simp [isKey] at h
  | cons p t ih =>
    simp only [List.map_cons, List.nodup_cons] at hnd
    obtain ⟨hp, ht⟩ := hnd
    simp only [List.foldl_cons, dictGet_cons]
    by_cases hpk : p.1 = k
    · subst hpk
      have htk : isKey t p.1 = false := by
        simp only [isKey, List.any_eq_false]
        intro q hq
        have hqp : q.1 ≠ p.1 := fun hq1 => hp (List.mem_map.2 ⟨q, hq, hq1⟩)
        simp [hqp]
      rw [dictGet_writeBack_not_key t _ _ htk, dictGet_dictSet]
      simp
    · have hpkb : (p.1 == k) = false := by simp [hpk]
      have htk : isKey t k = true := by
        simp only [isKey, List.any_cons, hpkb, Bool.false_or] at h
        exact h
      rw [ih _ ht htk]
      simp [hpkb]

theorem dictGet_writeBack_isSome [BEq κ] [LawfulBEq κ] [DecidableEq κ]
    (entries : List (κ × α)) (c : List (κ × α)) (k : κ)
    (h : (dictGet c k).isSome) :
    (dictGet (entries.foldl (fun c p => dictSet c p.1 p.2) c) k).isSome := by
  induction entries generalizing c with
  | nil => exact h
  | cons p t ih =>
    simp only [List.foldl_cons]
    apply ih
    rw [dictGet_dictSet]
    by_cases hk : k = p.1 <;> simp [hk, h]

/-! ## Claim theorems -/

/-- C1 (amended): `insert_step(i, s)` with `i` in `[0, n]` inserts `s` at
position `i`, shifting subsequent steps right (`i = n` appends); an index
above `n` does not fail: Python `list.insert` clamps it and appends. -/
theorem insert_step_clamps (l : List StepObj) (i : Int) (x : StepObj) :
    (0 ≤ i → i ≤ (l.length : Int) →
      pyListInsert l i x = l.take i.toNat ++ x :: l.drop i.toNat)
    ∧ ((l.length : Int) < i → pyListInsert l i x = l ++ [x]) := by
  constructor
  · intro h1 h2
    have hnotlt : ¬ i < 0 := by omega
    have hmin : min i.toNat l.length = i.toNat := by omega
    simp [pyListInsert, hnotlt, hmin]
  · intro h
    have hnotlt : ¬ i < 0 := by omega
    have hmin : min i.toNat l.length = l.length := by omega
    simp [pyListInsert, hnotlt, hmin]

/-- C1 (counterexample): on a one-step pipeline, `insert_step(2, s)` — an
index outside `[0, 1]` — raises no error: it appends, and the sequence is
modified, contrary to the claimed out-of-bounds failure with the sequence
left unmodified. -/
theorem insert_step_out_of_range_appends :
    pyListInsert [(⟨0, "Load"⟩ : StepObj)] 2 ⟨1, "Join"⟩ = [⟨0, "Load"⟩, ⟨1, "Join"⟩]
    ∧ pyListInsert [(⟨0, "Load"⟩ : StepObj)] 2 ⟨1, "Join"⟩ ≠ [⟨0, "Load"⟩] := by
  constructor <;> decide

/-- C1 (witness): inserting at index 1 = length appends. -/
theorem insert_step_clamps_witness :
    pyListInsert [(⟨0, "Load"⟩ : StepObj)] 1 ⟨1, "Join"⟩ = [⟨0, "Load"⟩, ⟨1, "Join"⟩] := by
  have h := (insert_step_clamps [(⟨0, "Load"⟩ : StepObj)] 1 ⟨1, "Join"⟩).1
    (by decide) (by decide)
  exact h.trans (by decide)

/-- C2: `remove_step(s)` removes the first occurrence of the exact instance
`s` (matched by reference identity: the step classes define no `__eq__`);
when no identical instance is present — in particular when a distinct
instance with an equal payload is — it raises `ValueError` and leaves the
sequence unmodified. -/
theorem remove_step_identity (l₁ l₂ l : List StepObj) (s a b : StepObj) :
    ((∀ y ∈ l₁, stepEq y s = false) → removeStepRun (l₁ ++ s :: l₂) s = (l₁ ++ l₂, none))
    ∧ ((∀ y ∈ l, stepEq y s = false) →
        removeStepRun l s = (l, some "list.remove(x): x not in list"))
    ∧ (a.name = b.name → a.objId ≠ b.objId →
        removeStepRun [a] b = ([a], some "list.remove(x): x not in list")) := by
  refine ⟨fun h => ?_, fun h => ?_, fun hn hid => ?_⟩
  · simp [removeStepRun, removeFirst_first_occ l₁ l₂ s h]
  · simp [removeStepRun, removeFirst_not_found l s h]
  · have hab : ∀ y ∈ [a], stepEq y b = false := by
      intro y hy
      simp only [List.mem_singleton] at hy
      subst hy
      simp [stepEq, hid]
    simp [removeStepRun, removeFirst_not_found [a] b hab]

/-- C2 (witness): removal of a present instance, of an absent instance, and
of a value-equal but non-identical instance. -/
theorem remove_step_identity_witness :
    removeStepRun [⟨0, "A"⟩, ⟨1, "B"⟩, ⟨2, "C"⟩] ⟨1, "B"⟩ = ([⟨0, "A"⟩, ⟨2, "C"⟩], none)
    ∧ removeStepRun [(⟨0, "A"⟩ : StepObj)] ⟨1, "B"⟩
        = ([⟨0, "A"⟩], some "list.remove(x): x not in list")
    ∧ removeStepRun [(⟨3, "X"⟩ : StepObj)] ⟨4, "X"⟩
        = ([⟨3, "X"⟩], some "list.remove(x): x not in list") := by
  obtain ⟨h1, h2, h3⟩ :=
    remove_step_identity [⟨0, "A"⟩] [⟨2, "C"⟩] [⟨0, "A"⟩] ⟨1, "B"⟩ ⟨3, "X"⟩ ⟨4, "X"⟩
  exact ⟨by simpa using h1 (by decide), h2 (by decide), h3 (by decide) (by decide)⟩

/-- C3: `LegacyAdapter.execute` writes every key of the mutated snapshot
back into the context: every key the context had stays present; a key the
legacy function dropped from the snapshot keeps its old context value; a
key present in the mutated snapshot takes the snapshot's value. -/
theorem legacy_adapter_writeback (legacyFn : List (String × α) → ε → List (String × α))
    (extra : ε) (ctx : List (String × α)) (k : String)
    (hnd : ((legacyFn ctx extra).map Prod.fst).Nodup) :
    ((dictGet ctx k).isSome → (dictGet (legacyAdapterExecute legacyFn extra ctx) k).isSome)
    ∧ (isKey (legacyFn ctx extra) k = false →
        dictGet (legacyAdapterExecute legacyFn extra ctx) k = dictGet ctx k)
    ∧ (isKey (legacyFn ctx extra) k = true →
        dictGet (legacyAdapterExecute legacyFn extra ctx) k = dictGet (legacyFn ctx extra) k) := by
  refine ⟨fun h => ?_, fun h => ?_, fun h => ?_⟩
  · exact dictGet_writeBack_isSome _ _ _ h
  · exact dictGet_writeBack_not_key _ _ _ h
  · exact dictGet_writeBack_key _ _ _ hnd h

/-- C3 (witness): the adapter wrapping `legacy_uppercase` on
`{"text": "abc"}` uppercases `"text"`, and the adapter wrapping
`legacy_clear` (which deletes every snapshot key) leaves `"keep"` in the
context with its old value. -/
theorem legacy_adapter_writeback_witness :
    dictGet (legacyAdapterExecute legacy_clear () [("keep", PyVal.str "v")]) "keep"
      = some (PyVal.str "v")
    ∧ dictGet (legacyAdapterExecute legacy_uppercase () [("text", PyVal.str "abc")]) "text"
      = some (PyVal.str "ABC") := by
  obtain ⟨hk1, hk2, hk3⟩ := legacy_adapter_writeback legacy_clear ()
    [("keep", PyVal.str "v")] "keep" (by decide)
  obtain ⟨ht1, ht2, ht3⟩ := legacy_adapter_writeback legacy_uppercase ()
    [("text", PyVal.str "abc")] "text" (by decide)
  exact ⟨(hk2 (by decide)).trans (by decide), (ht3 (by decide)).trans (by decide)⟩

/-- C4: `Pipeline.execute` runs the steps in sequence order; after a
successful prefix, a raising step stops the run at once — the following
steps never run, the error propagates unmodified, and the context keeps
everything the executed steps did — while a succeeding step hands its
context to the rest of the sequence. -/
theorem pipeline_execute_fail_fast (pre post : List (α → α × Option ε))
    (f : α → α × Option ε) (c c' c'' : α) (e : ε)
    (hpre : pipelineExecute pre c = (c', none)) :
    (f c' = (c'', some e) → pipelineExecute (pre ++ f :: post) c = (c'', some e))
    ∧ (f c' = (c'', none) → pipelineExecute (pre ++ f :: post) c = pipelineExecute post c'') := by
  constructor <;> intro hf <;> rw [pipelineExecute_append] <;> simp [hpre, pipelineExecute, hf]

/-- C4 (witness): a three-step trace-appending pipeline whose second step
raises keeps the first two effects, reports the error, and skips step 3. -/
theorem pipeline_execute_fail_fast_witness :
    pipelineExecute
      [fun c => (c ++ [1], none), fun c => (c ++ [2], some "boom"), fun c => (c ++ [3], none)]
      ([0] : List Nat) = ([0, 1, 2], some "boom") := by
  have h := (pipeline_execute_fail_fast
      [fun c => (c ++ [1], (none : Option String))]
      [fun c => (c ++ [3], none)]
      (fun c => (c ++ [2], some "boom"))
      [0] [0, 1] [0, 1, 2] "boom" rfl).1 rfl
  simpa using h

/-- C5: the five-step text pipeline on
`{"src": "A quick brown fox, and a lazy dog."}` terminates without error
and leaves `"result"` equal to `"quick brown fox lazy dog"`. -/
theorem text_pipeline_end_to_end :
    (pipelineExecute textPipeline [("src", PyVal.str "A quick brown fox, and a lazy dog.")]).2
      = none
    ∧ dictGet (pipelineExecute textPipeline
        [("src", PyVal.str "A quick brown fox, and a lazy dog.")]).1 "result"
      = some (PyVal.str "quick brown fox lazy dog") := by
  constructor <;> rfl

/-- C6: from any metaclass-registry state, a second construction request
for `SingletonStep` returns the instance of the first (reference equality),
allocating nothing new, so exactly one instance exists and is memoized; and
its `execute` leaves every context unchanged. -/
theorem singleton_construction_unique (s : SingletonState) :
    (singletonCall (singletonCall s).1).2 = (singletonCall s).2
    ∧ (singletonCall (singletonCall s).1).1 = (singletonCall s).1
    ∧ (singletonCall s).1.inst = some (singletonCall s).2
    ∧ ∀ (α : Type) (ctx : α), singletonExecute ctx = ctx := by
  refine ⟨?_, ?_, ?_, fun α ctx => rfl⟩ <;>
    cases h : s.inst <;> simp [singletonCall, h]

/-- C7 (amended): `to_dict` returns a new top-level mapping with the same
entries — so a top-level write into the copy changes only the copy's own
lookup at that key — but the entries share the nested value references, so
an in-place mutation of a nested list reached through the copy is observed
through the Context. -/
theorem to_dict_shallow_copy (d : List (String × HVal)) (h : Heap) (k : String)
    (kv : String × HVal) (r : Nat) (xs : List String) :
    (dictGet (to_dict d) k = dictGet d k)
    ∧ (dictGet (dictSet (to_dict d) kv.1 kv.2) k
        = if k = kv.1 then some kv.2 else dictGet d k)
    ∧ (dictGet (to_dict d) k = some (.ref r) → derefGet d (heapWrite h r xs) k = some xs) := by
  refine ⟨rfl, dictGet_dictSet d kv.1 kv.2 k, fun hk => ?_⟩
  simp only [to_dict] at hk
  simp [derefGet, heapWrite, hk, dictGet_dictSet]

/-- C7 (counterexample): for a Context holding a nested list under `"xs"`,
the `to_dict` copy hands out the same reference, and mutating the nested
list through the copy changes the value observed through the Context — the
Context's stored data is not left unaffected as claimed. -/
theorem to_dict_nested_mutation_visible :
    dictGet (to_dict [("xs", HVal.ref 0)]) "xs" = some (HVal.ref 0)
    ∧ derefGet [("xs", HVal.ref 0)] [(0, ["a"])] "xs" = some ["a"]
    ∧ derefGet [("xs", HVal.ref 0)] (heapWrite [(0, ["a"])] 0 ["a", "b"]) "xs"
        = some ["a", "b"]
    ∧ derefGet [("xs", HVal.ref 0)] (heapWrite [(0, ["a"])] 0 ["a", "b"]) "xs"
        ≠ derefGet [("xs", HVal.ref 0)] [(0, ["a"])] "xs" := by
  refine ⟨rfl, rfl, rfl, by decide⟩

/-- C7 (witness): the shared-reference conjunct at a concrete Context and
heap. -/
theorem to_dict_shallow_copy_witness :
    derefGet [("ys", HVal.ref 5)] (heapWrite [(5, ["p"])] 5 ["q"]) "ys" = some ["q"] := by
  exact (to_dict_shallow_copy [("ys", HVal.ref 5)] [(5, ["p"])] "ys"
    ("z", HVal.str "w") 5 ["q"]).2.2 (by decide)

/-- C8 (amended): `describe` writes the header `"Pipeline with N steps:"`
at the given indentation with `N` the number of contained steps, then each
step behind its 1-based index marker; a nested pipeline's description is
always written at the fixed indentation 2, irrespective of the outer
nesting level, so deeper levels gain no additional indentation. -/
theorem describe_structure (steps : List DStep) (s : DStep) (t : List DStep)
    (indent i : Nat) (pre nm : String) (p : DPipeline) :
    (∃ rest, dpipeDescribe (.mk steps) indent
        = spaces indent ++ "Pipeline with " ++ toString steps.length ++ " steps:\n" ++ rest)
    ∧ dstepsDescribe (s :: t) pre i
        = pre ++ " " ++ toString i ++ ". " ++ dstepDescribe s ++ dstepsDescribe t pre (i + 1)
    ∧ dstepDescribe (.nestedStep nm p)
        = "NestedPipelineStep: " ++ nm ++ "\n" ++ dpipeDescribe p 2 := by
  exact ⟨⟨dstepsDescribe steps (spaces indent) 1, rfl⟩, rfl, rfl⟩

/-- C8 (counterexample): on a doubly nested pipeline described at
indentation 0, the innermost header carries 2 spaces, not the 4 the
per-level rule requires: the output differs from the spec-modelled
accumulated-indentation rendering. -/
theorem describe_nested_indent_fixed :
    dpipeDescribe (.mk [.nestedStep "Outer" (.mk [.nestedStep "Inner" (.mk [])])]) 0
      = "Pipeline with 1 steps:\n 1. NestedPipelineStep: Outer\n  Pipeline with 1 steps:\n   1. NestedPipelineStep: Inner\n  Pipeline with 0 steps:\n"
    ∧ specDPipeDescribe (.mk [.nestedStep "Outer" (.mk [.nestedStep "Inner" (.mk [])])]) 0
      = "Pipeline with 1 steps:\n 1. NestedPipelineStep: Outer\n  Pipeline with 1 steps:\n   1. NestedPipelineStep: Inner\n    Pipeline with 0 steps:\n"
    ∧ dpipeDescribe (.mk [.nestedStep "Outer" (.mk [.nestedStep "Inner" (.mk [])])]) 0
      ≠ specDPipeDescribe (.mk [.nestedStep "Outer" (.mk [.nestedStep "Inner" (.mk [])])]) 0 := by
  refine ⟨rfl, rfl, by decide⟩

/-- C9: `BeforeAfterDecorator.execute` runs the before hook, the wrapped
step, then the after hook, each exactly once in that order (shown on
trace-appending hooks), and an absent hook is simply omitted while the
wrapped step still runs. -/
theorem before_after_ordering (t : List Nat) (g : List Nat → List Nat) :
    beforeAfterExecute (some (· ++ [0])) (some (· ++ [2])) (· ++ [1]) t = t ++ [0, 1, 2]
    ∧ beforeAfterExecute none none g t = g t
    ∧ beforeAfterExecute (some (· ++ [0])) none g t = g (t ++ [0])
    ∧ beforeAfterExecute none (some (· ++ [2])) g t = g t ++ [2] := by
  refine ⟨?_, rfl, rfl, rfl⟩
  simp [beforeAfterExecute]

/-- C10: after the first construction, a later construction request returns
the memoized instance without re-running `__init__`: a rename of the shared
instance survives — the returned instance carries the new name and the same
identity, and nothing is reset or re-allocated. -/
theorem singleton_memoized_state (s0 : SingletonState) (newName : String)
    (h : s0.inst = none) :
    (singletonCall (singletonSetName (singletonCall s0).1 newName)).2.name = newName
    ∧ (singletonCall (singletonSetName (singletonCall s0).1 newName)).2.objId
        = (singletonCall s0).2.objId
    ∧ (singletonCall (singletonSetName (singletonCall s0).1 newName)).1
        = singletonSetName (singletonCall s0).1 newName := by
  simp [singletonCall, singletonSetName, h]

/-- C10 (witness): renaming the memoized instance to `"Renamed"` is
observable on the instance a later construction returns. -/
theorem singleton_memoized_state_witness :
    (singletonCall (singletonSetName (singletonCall ⟨none, 0⟩).1 "Renamed")).2.name
      = "Renamed"
    ∧ (singletonCall (singletonSetName (singletonCall ⟨none, 0⟩).1 "Renamed")).2.objId
      = (singletonCall ⟨none, 0⟩).2.objId := by
  have h := singleton_memoized_state ⟨none, 0⟩ "Renamed" rfl
  exact ⟨h.1, h.2.1⟩

end SDM
